import Mathlib

-- Verification of the retrieval core of the Nestle annual-report chatbot
-- (src/app.py).  The pipeline is: sentence chunking (build_tfidf_chunks),
-- text normalization (preprocess), TF-IDF vectorization and cosine-similarity
-- retrieval (get_answer), and the surrounding answer handler.
--
-- Modelling conventions:
--  * Python strings are modelled as `List Char` (`Str`).
--  * `sent_tokenize` (NLTK punkt) is an external collaborator; the chunking
--    loop is modelled as a function of the sentence list it returns.
--    On empty input text it returns the empty sentence list.
--  * The NLTK stopword resource is an external resource modelled as an
--    `Option (List Str)`: `none` when loading fails (the code catches
--    LookupError and falls back to the empty set).
--  * sklearn's TfidfVectorizer / cosine_similarity are modelled exactly on
--    the fragment of inputs the program feeds them (lowercase a-z words
--    separated by single spaces): its token pattern \b\w\w+\b keeps the
--    words of length >= 2; idf weights (ln((1+n)/(1+df))+1, an irrational
--    number) are abstracted by a parameter `idfW : Nat -> Rat` applied to
--    the document frequency, so every theorem quantifying over `idfW`
--    covers the real weights; similarities are represented by the squared
--    cosine over Rat, which is order- and tie-equivalent to the cosine
--    because all vector entries are nonnegative for the real (positive)
--    idf weights.  fit_transform raises ValueError on an empty vocabulary,
--    modelled by `Except`.
--  * numpy argsort is modelled as a stable ascending sort of indices.
--    numpy's default sort (quicksort/introsort) is documented as not
--    stable in general; it degenerates to insertion sort — which is
--    stable — only for arrays of fewer than 16 elements.  The model is
--    therefore faithful to the program's tie order only below 16
--    passages, and every theorem whose truth depends on the order of
--    exactly tied scores carries that size bound as a hypothesis;
--    theorems that do not depend on tie order are unaffected.

namespace NestleBot

abbrev Str := List Char

-- ## Character-level helpers (ASCII fragment of Python semantics)

-- Python `c.islower-range` check: the regex [^a-z\s] keeps exactly a-z.
def isLowerAlpha (c : Char) : Bool := 97 ≤ c.toNat && c.toNat ≤ 122

def isUpperAlpha (c : Char) : Bool := 65 ≤ c.toNat && c.toNat ≤ 90

-- Python \s and str.split() whitespace, ASCII fragment.
def isSpaceCh (c : Char) : Bool :=
  c.toNat = 32 || c.toNat = 9 || c.toNat = 10 || c.toNat = 13 || c.toNat = 11 || c.toNat = 12

-- Python str.lower(), ASCII fragment.
def pyLower (c : Char) : Char :=
  if isUpperAlpha c then Char.ofNat (c.toNat + 32) else c

-- One character step of `txt.lower()` followed by re.sub(r"[^a-z\s]", " ", txt).
def cleanChar (c : Char) : Char :=
  if isLowerAlpha c || isSpaceCh c then c else ' '

def normChar (c : Char) : Char := cleanChar (pyLower c)

def normChars (txt : Str) : Str := txt.map normChar

-- ## The chunking loop of build_tfidf_chunks (src/app.py lines 220-228)
--
--   chunks, cur = [], ""
--   for s in sents:
--       if len(cur) + len(s) <= chunk_size:
--           cur += " " + s
--       else:
--           chunks.append(cur)
--           cur = s
--   chunks.append(cur)

def chunkLoop (chunkSize : Nat) (chunks : List Str) (cur : Str) : List Str → List Str
  | [] => chunks ++ [cur]
  | s :: rest =>
    if cur.length + s.length ≤ chunkSize then
      chunkLoop chunkSize chunks (cur ++ ' ' :: s) rest
    else
      chunkLoop chunkSize (chunks ++ [cur]) s rest

def buildChunks (chunkSize : Nat) (sents : List Str) : List Str :=
  chunkLoop chunkSize [] [] sents

-- Accumulator lemma: the chunks collected so far are a fixed output head.
theorem chunkLoop_acc (n : Nat) (sents : List Str) :
    ∀ (chunks : List Str) (cur : Str),
      chunkLoop n chunks cur sents = chunks ++ chunkLoop n [] cur sents := by
  induction sents with
  | nil => intro chunks cur; simp [chunkLoop]
  | cons s rest ih =>
    intro chunks cur
    by_cases h : cur.length + s.length ≤ n
    · simp only [chunkLoop, if_pos h]
      exact ih chunks (cur ++ ' ' :: s)
    · simp only [chunkLoop, if_neg h]
      rw [ih (chunks ++ [cur]) s, ih ([] ++ [cur]) s]
      simp

-- Invariant lemma for the chunk-size bound: every emitted chunk either has
-- length at most chunkSize + 1 (the separator space added by `cur += " " + s`
-- is not counted by the check) or is verbatim one of the input sentences.
theorem chunkLoop_bound (n : Nat) (S : List Str) :
    ∀ (sents : List Str), (∀ s ∈ sents, s ∈ S) →
    ∀ (chunks : List Str) (cur : Str),
      (∀ x ∈ chunks, x.length ≤ n + 1 ∨ x ∈ S) →
      (cur.length ≤ n + 1 ∨ cur ∈ S) →
      ∀ c ∈ chunkLoop n chunks cur sents, c.length ≤ n + 1 ∨ c ∈ S := by
  intro sents
  induction sents with
  | nil =>
    intro _ chunks cur hch hcur c hc
    simp only [chunkLoop] at hc
    rcases List.mem_append.mp hc with h | h
    · exact hch c h
    · simp only [List.mem_singleton] at h; subst h; exact hcur
  | cons s rest ih =>
    intro hsub chunks cur hch hcur c hc
    by_cases h : cur.length + s.length ≤ n
    · simp only [chunkLoop, if_pos h] at hc
      refine ih (fun t ht => hsub t (by simp [ht])) chunks (cur ++ ' ' :: s) hch ?_ c hc
      left
      simp only [List.length_append, List.length_cons]
      omega
    · simp only [chunkLoop, if_neg h] at hc
      refine ih (fun t ht => hsub t (by simp [ht])) (chunks ++ [cur]) s ?_ ?_ c hc
      · intro x hx
        rcases List.mem_append.mp hx with h1 | h1
        · exact hch x h1
        · simp only [List.mem_singleton] at h1; subst h1; exact hcur
      · right; exact hsub s (by simp)

def c3sents : List Str := ["ab".data, "cd".data]

/-- C3 counterexample: with chunk size 5 and sentences "ab", "cd" the chunker
emits the single passage " ab cd" of length 6 > 5, which is not a single
sentence exceeding the bound (the leading and separating spaces inserted by
`cur += " " + s` are never counted by the check `len(cur) + len(s) <= n`).
So it is false that every passage is at most `max_chars` long except
single oversize sentences. -/
theorem c3_counterexample :
    ¬ (∀ c ∈ buildChunks 5 c3sents, c.length ≤ 5 ∨ (c ∈ c3sents ∧ 5 < c.length)) := by
  decide

/-- C3 amended: every passage produced by the chunker has raw text of length
at most `max_chars + 1` (the inserted separator space is not counted by the
check), except a passage consisting of a single input sentence, which is
emitted verbatim however long it is. -/
theorem c3_amended (n : Nat) (sents : List Str) (c : Str)
    (hc : c ∈ buildChunks n sents) : c.length ≤ n + 1 ∨ c ∈ sents := by
  refine chunkLoop_bound n sents sents (fun s hs => hs) [] [] ?_ ?_ c hc
  · intro x hx; cases hx
  · left; simp

/-- C3 witness: the amended bound instantiated on the counterexample input;
the oversize passage " ab cd" has length 6 = 5 + 1. -/
theorem c3_amended_witness :
    (" ab cd".data).length ≤ 5 + 1 ∨ " ab cd".data ∈ c3sents :=
  c3_amended 5 c3sents " ab cd".data (by decide)

/-- C10: whenever a sentence `s` longer than the chunk size arrives while the
accumulation buffer is empty (in particular when the first sentence of the
document already exceeds the chunk size), the empty buffer is closed and
appended as an (empty) passage, and `s` starts the next buffer. -/
theorem c10_empty_passage (n : Nat) (chunks : List Str) (s : Str) (rest : List Str)
    (h : n < s.length) :
    chunkLoop n chunks [] (s :: rest) = chunks ++ [] :: chunkLoop n [] s rest := by
  have hle : ¬ (List.length ([] : Str) + s.length ≤ n) := by
    simp only [List.length_nil, Nat.zero_add]; omega
  simp only [chunkLoop, if_neg hle]
  rw [chunkLoop_acc]
  simp

/-- C10 witness: with chunk size 3 and first sentence "abcdef" (length 6) the
output starts with an empty passage, and "abcdef" seeds the next buffer;
the full output is ["", "abcdef", "xy"]. -/
theorem c10_witness :
    chunkLoop 3 [] [] ("abcdef".data :: ["xy".data]) =
      [] ++ [] :: chunkLoop 3 [] "abcdef".data ["xy".data] :=
  c10_empty_passage 3 [] "abcdef".data ["xy".data] (by decide)

-- ## The normalizer preprocess (src/app.py lines 199-209)
--
--   sw = set(stopwords.words("english"))   (empty set on LookupError)
--   txt = txt.lower()
--   txt = re.sub(r"[^a-z\s]", " ", txt)
--   return " ".join([w for w in txt.split() if w not in sw])

-- Python str.split(): split on whitespace, dropping empty pieces.  The
-- helper cuts at every whitespace character (keeping empty pieces), the
-- wrapper drops the empty pieces.
def splitWsCore : Str → List Str
  | [] => []
  | c :: rest =>
    if isSpaceCh c then [] :: splitWsCore rest
    else
      match splitWsCore rest with
      | [] => [[c]]
      | w :: ws => (c :: w) :: ws

def splitWs (l : Str) : List Str := (splitWsCore l).filter (fun w => !w.isEmpty)

-- Python " ".join(ws): pieces separated by single spaces (empties preserved).
def joinSp : List Str → Str
  | [] => []
  | [w] => w
  | w :: x :: t => w ++ ' ' :: joinSp (x :: t)

def tokensOf (txt : Str) : List Str := splitWs (normChars txt)

def preprocessW (sw : List Str) (txt : Str) : Str :=
  joinSp ((tokensOf txt).filter (fun w => !(sw.contains w)))

def preprocess (res : Option (List Str)) (txt : Str) : Str :=
  preprocessW (res.getD []) txt

theorem splitWsCore_chars : ∀ (l : Str), ∀ w ∈ splitWsCore l, ∀ c ∈ w,
    isSpaceCh c = false ∧ c ∈ l := by
  intro l
  induction l with
  | nil => intro w hw; simp [splitWsCore] at hw
  | cons c rest ih =>
    intro w hw d hd
    rw [splitWsCore] at hw
    by_cases h : isSpaceCh c = true
    · rw [if_pos h] at hw
      rcases List.mem_cons.mp hw with rfl | hw2
      · simp at hd
      · obtain ⟨h1, h2⟩ := ih w hw2 d hd
        exact ⟨h1, List.mem_cons_of_mem c h2⟩
    · rw [if_neg h] at hw
      have hcf : isSpaceCh c = false := by simpa using h
      rcases hr : splitWsCore rest with _ | ⟨w0, ws⟩
      · rw [hr] at hw
        simp only [List.mem_singleton] at hw
        subst hw
        rcases List.mem_singleton.mp hd with rfl
        exact ⟨hcf, by simp⟩
      · rw [hr] at hw
        rcases List.mem_cons.mp hw with rfl | hw2
        · rcases List.mem_cons.mp hd with rfl | hd2
          · exact ⟨hcf, by simp⟩
          · have h3 := ih w0 (by rw [hr]; simp) d hd2
            exact ⟨h3.1, List.mem_cons_of_mem c h3.2⟩
        · have h3 := ih w (by rw [hr]; simp [hw2]) d hd
          exact ⟨h3.1, List.mem_cons_of_mem c h3.2⟩

theorem splitWs_words (l : Str) : ∀ w ∈ splitWs l,
    w ≠ [] ∧ ∀ c ∈ w, isSpaceCh c = false ∧ c ∈ l := by
  intro w hw
  have h1 := List.of_mem_filter (p := fun w : Str => !w.isEmpty) hw
  have h2 := List.mem_of_mem_filter hw
  refine ⟨?_, fun c hc => splitWsCore_chars l w h2 c hc⟩
  simpa using h1

theorem splitWsCore_solo : ∀ (w : Str), (∀ c ∈ w, isSpaceCh c = false) → w ≠ [] →
    splitWsCore w = [w] := by
  intro w
  induction w with
  | nil => intro _ h; exact absurd rfl h
  | cons c w2 ih =>
    intro hall _
    have hc : isSpaceCh c = false := hall c (by simp)
    rw [splitWsCore, if_neg (by simp [hc])]
    cases hw2 : w2 with
    | nil => simp [splitWsCore]
    | cons d t =>
      rw [← hw2, ih (fun d hd => hall d (by simp [hd])) (by simp [hw2])]

theorem splitWsCore_word : ∀ (w : Str), (∀ c ∈ w, isSpaceCh c = false) → w ≠ [] →
    ∀ (J : Str), splitWsCore (w ++ ' ' :: J) = w :: splitWsCore J := by
  intro w
  induction w with
  | nil => intro _ h; exact absurd rfl h
  | cons c w2 ih =>
    intro hall _ J
    have hc : isSpaceCh c = false := hall c (by simp)
    show splitWsCore (c :: (w2 ++ ' ' :: J)) = (c :: w2) :: splitWsCore J
    rw [splitWsCore, if_neg (by simp [hc])]
    cases hw2 : w2 with
    | nil =>
      simp only [List.nil_append]
      rw [splitWsCore, if_pos (by decide)]
    | cons d t =>
      rw [← hw2, ih (fun d hd => hall d (by simp [hd])) (by simp [hw2]) J]

-- Splitting a space-joined list of nonempty space-free words recovers it.
theorem splitWs_joinSp : ∀ (ws : List Str),
    (∀ w ∈ ws, w ≠ [] ∧ ∀ c ∈ w, isSpaceCh c = false) →
    splitWs (joinSp ws) = ws := by
  intro ws
  induction ws with
  | nil => intro _; rfl
  | cons w ws2 ih =>
    intro hall
    obtain ⟨hne, hchars⟩ := hall w (by simp)
    have hemp : (!w.isEmpty) = true := by
      cases w
      · exact absurd rfl hne
      · rfl
    cases ws2 with
    | nil =>
      show splitWs w = [w]
      rw [splitWs, splitWsCore_solo w hchars hne]
      simp [hemp]
    | cons x t =>
      show splitWs (w ++ ' ' :: joinSp (x :: t)) = w :: x :: t
      rw [splitWs, splitWsCore_word w hchars hne (joinSp (x :: t))]
      have hrest : splitWs (joinSp (x :: t)) = x :: t :=
        ih (fun v hv => hall v (by simp [hv]))
      rw [splitWs] at hrest
      simp only [List.filter_cons, hemp, if_true, hrest]

theorem mem_joinSp : ∀ (ws : List Str) (c : Char), c ∈ joinSp ws →
    c = ' ' ∨ ∃ w ∈ ws, c ∈ w := by
  intro ws
  induction ws with
  | nil => intro c hc; simp [joinSp] at hc
  | cons w ws2 ih =>
    intro c hc
    cases ws2 with
    | nil => exact Or.inr ⟨w, by simp, by simpa [joinSp] using hc⟩
    | cons x t =>
      rw [show joinSp (w :: x :: t) = w ++ ' ' :: joinSp (x :: t) from rfl] at hc
      rcases List.mem_append.mp hc with h | h
      · exact Or.inr ⟨w, by simp, h⟩
      · rcases List.mem_cons.mp h with rfl | h2
        · exact Or.inl rfl
        · rcases ih c h2 with h3 | ⟨v, hv, hcv⟩
          · exact Or.inl h3
          · exact Or.inr ⟨v, by simp [hv], hcv⟩

theorem map_fix (f : Char → Char) : ∀ (l : Str), (∀ c ∈ l, f c = c) → l.map f = l := by
  intro l
  induction l with
  | nil => intro _; rfl
  | cons c rest ih =>
    intro h
    simp only [List.map_cons, h c (by simp), ih (fun d hd => h d (by simp [hd]))]

theorem normChar_fix_alpha (c : Char) (h : isLowerAlpha c = true) : normChar c = c := by
  have hn : 97 ≤ c.toNat ∧ c.toNat ≤ 122 := by simpa [isLowerAlpha] using h
  have hup : isUpperAlpha c = false := by
    simp only [isUpperAlpha, Bool.and_eq_false_iff, decide_eq_false_iff_not]
    omega
  have hlow : pyLower c = c := by rw [pyLower, hup]; rfl
  rw [normChar, hlow, cleanChar, if_pos (by simp [h])]

theorem normChar_ok (c : Char) :
    (isLowerAlpha (normChar c) || isSpaceCh (normChar c)) = true := by
  rw [normChar, cleanChar]
  by_cases h : (isLowerAlpha (pyLower c) || isSpaceCh (pyLower c)) = true
  · rw [if_pos h]; exact h
  · rw [if_neg h]; decide

theorem preprocessW_idem (sw : List Str) (txt : Str) :
    preprocessW sw (preprocessW sw txt) = preprocessW sw txt := by
  have hws : preprocessW sw txt =
      joinSp ((tokensOf txt).filter (fun w => !(sw.contains w))) := rfl
  set ws := (tokensOf txt).filter (fun w => !(sw.contains w)) with hdef
  have hword : ∀ w ∈ ws, w ≠ [] ∧ ∀ c ∈ w, isSpaceCh c = false ∧ c ∈ normChars txt := by
    intro w hw
    exact splitWs_words (normChars txt) w (List.mem_of_mem_filter hw)
  have halpha : ∀ w ∈ ws, ∀ c ∈ w, isLowerAlpha c = true := by
    intro w hw c hc
    obtain ⟨-, hwc⟩ := hword w hw
    obtain ⟨hsp, hmem⟩ := hwc c hc
    obtain ⟨a, -, rfl⟩ := List.mem_map.mp hmem
    rcases Bool.or_eq_true_iff.mp (normChar_ok a) with h | h
    · exact h
    · rw [hsp] at h; cases h
  have hfix : ∀ c ∈ joinSp ws, normChar c = c := by
    intro c hc
    rcases mem_joinSp ws c hc with rfl | ⟨w, hw, hcw⟩
    · decide
    · exact normChar_fix_alpha c (halpha w hw c hcw)
  have hnorm : normChars (joinSp ws) = joinSp ws := map_fix normChar _ hfix
  have hsplit : splitWs (joinSp ws) = ws :=
    splitWs_joinSp ws (fun w hw =>
      ⟨(hword w hw).1, fun c hc => ((hword w hw).2 c hc).1⟩)
  have hfilt : ws.filter (fun w => !(sw.contains w)) = ws := by
    refine List.filter_eq_self.mpr ?_
    intro w hw
    rw [hdef] at hw
    exact List.of_mem_filter (p := fun w : Str => !(sw.contains w)) hw
  rw [hws]
  simp only [preprocessW, tokensOf]
  rw [hnorm, hsplit, hfilt]

/-- C7: the normalizer is idempotent — applying preprocess to its own output
returns that output unchanged, for every stopword-resource state and every
input string. -/
theorem c7_preprocess_idempotent (res : Option (List Str)) (txt : Str) :
    preprocess res (preprocess res txt) = preprocess res txt :=
  preprocessW_idem (res.getD []) txt

/-- C8: when the stopword resource fails to load (LookupError), preprocess
falls back to the empty stopword set and returns the whitespace tokens of the
cleaned text unfiltered, joined by single spaces; the failure is absorbed
locally (preprocess stays a total function) and no error escapes. -/
theorem c8_stopword_fallback (txt : Str) :
    preprocess none txt = joinSp (tokensOf txt) := by
  show joinSp ((tokensOf txt).filter (fun w => !(([] : List Str).contains w))) =
    joinSp (tokensOf txt)
  have h : (tokensOf txt).filter (fun w => !(([] : List Str).contains w)) = tokensOf txt :=
    List.filter_eq_self.mpr (fun a _ => rfl)
  rw [h]

-- ## TF-IDF vectorization and retrieval (src/app.py lines 229-239)
--
-- The vectorizer is sklearn's TfidfVectorizer(max_features=3000) applied to
-- the preprocessed chunks (strings over a-z and spaces).  On that input its
-- analyzer extracts the whitespace tokens of length >= 2 (token pattern
-- \b\w\w+\b) and builds the alphabetically sorted vocabulary, capped at the
-- 3000 most frequent terms.  fit_transform raises
-- ValueError("empty vocabulary; ...") when no token occurs in any document.
-- Each document row is tf * idf over the vocabulary; the idf weight
-- ln((1+n)/(1+df))+1 is irrational, so it is abstracted by the parameter
-- `idfW` applied to the document frequency df; all idf-independent claims
-- are proved for every `idfW`.  The L2 normalization of rows and of the
-- query vector cancels in cosine similarity, which is modelled by the
-- squared cosine over Rat (division by a zero norm yields 0, exactly like
-- sklearn's zero-vector convention); squaring is order- and tie-preserving
-- because every entry is nonnegative for the real (positive) idf weights.

def sklearnTokenize (s : Str) : List Str :=
  (splitWs s).filter (fun w => 2 ≤ w.length)

def wordLtB : Str → Str → Bool
  | [], [] => false
  | [], _ :: _ => true
  | _ :: _, [] => false
  | a :: u, b :: v => if a < b then true else if b < a then false else wordLtB u v

def insWord (w : Str) : List Str → List Str
  | [] => [w]
  | x :: t => if wordLtB x w then x :: insWord w t else w :: x :: t

def sortWords (l : List Str) : List Str := l.foldr insWord []

def maxFeatures : Nat := 3000

def insByCount (toks : List Str) (t : Str) : List Str → List Str
  | [] => [t]
  | x :: r => if toks.count x < toks.count t then t :: x :: r else x :: insByCount toks t r

-- Frequency pruning used only when the vocabulary exceeds max_features.
def sortByCountDesc (toks : List Str) (l : List Str) : List Str :=
  l.foldr (insByCount toks) []

def vocabOf (docTok : List (List Str)) : List Str :=
  let terms := sortWords (docTok.flatten).dedup
  if terms.length ≤ maxFeatures then terms
  else sortWords ((sortByCountDesc docTok.flatten terms).take maxFeatures)

def dfOf (docTok : List (List Str)) (t : Str) : Nat :=
  (docTok.filter (fun d => d.contains t)).length

structure TfidfIndex where
  chunks : List Str
  vocab : List Str
  idf : List Rat
  mat : List (List Rat)
deriving DecidableEq

def emptyVocabMsg : String :=
  "empty vocabulary; perhaps the documents only contain stop words"

-- build_tfidf_chunks(text, chunk_size=800): chunk, clean, fit_transform.
def build_tfidf_chunks (sw : Option (List Str)) (idfW : Nat → Rat) (chunkSize : Nat)
    (sents : List Str) : Except String TfidfIndex :=
  let chunks := buildChunks chunkSize sents
  let docTok := chunks.map (fun c => sklearnTokenize (preprocess sw c))
  let vocab := vocabOf docTok
  if vocab.isEmpty then Except.error emptyVocabMsg
  else Except.ok ⟨chunks, vocab,
    vocab.map (fun t => idfW (dfOf docTok t)),
    docTok.map (fun d => vocab.map (fun t => (d.count t : Rat) * idfW (dfOf docTok t)))⟩

def dotL (a b : List Rat) : Rat := (List.zipWith (fun x y => x * y) a b).sum

-- Squared cosine similarity; equals 0 whenever either vector is zero.
def simSq (q x : List Rat) : Rat := dotL q x * dotL q x / (dotL q q * dotL x x)

-- qv = vec.transform([preprocess(q)]); sims = cosine_similarity(qv, X).
def simsOf (sw : Option (List Str)) (idx : TfidfIndex) (q : Str) : List Rat :=
  let qtoks := sklearnTokenize (preprocess sw q)
  let qv := List.zipWith (fun t w => (qtoks.count t : Rat) * w) idx.vocab idx.idf
  idx.mat.map (fun x => simSq qv x)

-- numpy ascending argsort, modelled as stable for exactly equal keys.
-- The real default sort is guaranteed stable only below 16 elements
-- (insertion-sort regime); conclusions about tie order are only drawn
-- under that size bound.
def insIdx (v : Nat → Rat) (k : Nat) : List Nat → List Nat
  | [] => [k]
  | j :: t => if v j ≤ v k then j :: insIdx v k t else k :: j :: t

def argsort (v : Nat → Rat) (n : Nat) : List Nat :=
  (List.range n).foldl (fun acc k => insIdx v k acc) []

-- top = sims.argsort()[-2:][::-1]
def getTop (sims : List Rat) : List Nat :=
  ((argsort (fun k => sims.getD k 0) sims.length).reverse).take 2

-- " ".join(df.iloc[top]["chunk"].values)
def get_answer (sw : Option (List Str)) (idx : TfidfIndex) (q : Str) : Str :=
  joinSp ((getTop (simsOf sw idx q)).map (fun i => idx.chunks.getD i []))

-- The fixed apology string of src/app.py line 283; its apostrophe is the
-- right single quotation mark U+2019, not the ASCII apostrophe U+0027.
def fallbackMsg : Str :=
  "Sorry, I couldn’t find that information in the uploaded report.".data

-- The ask handler (src/app.py lines 278-283): runs only when the stripped
-- query is nonempty, and substitutes the apology only when the retrieved
-- text is empty after stripping.
def ask_handler (sw : Option (List Str)) (idx : TfidfIndex) (q : Str) : Option Str :=
  if q.all isSpaceCh then none
  else
    let ans := get_answer sw idx q
    some (if ans.all isSpaceCh then fallbackMsg else ans)

def idfOne : Nat → Rat := fun _ => 1

-- The Batteries rational operations are sealed; reopen them so that the
-- concrete evaluations below reduce.
unseal Rat.mul Rat.add Rat.inv Rat.sub

-- ## C1: zero-overlap query

def c1sents : List Str := ["Nestle India focuses on sustainability.".data]

def q1 : Str := "xyzabc nonsense query".data

def c1chunk : Str := " Nestle India focuses on sustainability.".data

def c1I : TfidfIndex :=
  ⟨[c1chunk],
   ["focuses".data, "india".data, "nestle".data, "on".data, "sustainability".data],
   [1, 1, 1, 1, 1],
   [[1, 1, 1, 1, 1]]⟩

/-- C1: evaluation of the code at the failing input.  Against the index built
from "Nestle India focuses on sustainability." the query "xyzabc nonsense
query" shares no vocabulary, every similarity is exactly 0 — yet get_answer
still returns the text of the (arbitrary) top-argsort passage and the handler
forwards it: the fixed fallback string is NOT returned.  The retrieval code
never inspects the similarity scores. -/
theorem c1_zero_overlap_returns_passage_text :
    build_tfidf_chunks none idfOne 800 c1sents = Except.ok c1I ∧
    simsOf none c1I q1 = [0] ∧
    ask_handler none c1I q1 = some c1chunk ∧
    c1chunk ≠ fallbackMsg := by
  refine ⟨?_, ?_, ?_, ?_⟩ <;> first | rfl | decide

-- ## C2: empty document text

/-- C2: evaluation of the code at the failing input.  On empty document text
sent_tokenize yields no sentences, the chunker emits exactly one empty
passage — but fit_transform then raises ValueError("empty vocabulary ..."),
so build_tfidf_chunks raises instead of returning an index. -/
theorem c2_empty_text_raises :
    buildChunks 800 [] = [[]] ∧
    build_tfidf_chunks none idfOne 800 [] = Except.error emptyVocabMsg := by
  exact ⟨rfl, rfl⟩

-- ## C6: empty or whitespace-only query

def claimedFallback : Str :=
  "Sorry, I couldn\x27t find that information in the uploaded report.".data

/-- C6 counterexample: on the whitespace-only query "   " the handler is
skipped entirely (`if ask and q.strip():`) and produces no answer at all, so
it does not return the claimed fallback string; moreover the code's fallback
constant differs character-for-character from the claimed one (U+2019 vs the
ASCII apostrophe). -/
theorem c6_counterexample :
    ask_handler none c1I "   ".data = none ∧ fallbackMsg ≠ claimedFallback := by
  exact ⟨rfl, by decide⟩

/-- C6 amended: for every index, an empty or whitespace-only query_text makes
the handler produce no response at all (retrieval is never invoked); the
fallback string that the handler substitutes in its no-text case is
"Sorry, I couldn’t find that information in the uploaded report." spelled
with the right single quotation mark U+2019, not an ASCII apostrophe. -/
theorem c6_amended (sw : Option (List Str)) (idx : TfidfIndex) (q : Str) :
    (q.all isSpaceCh = true → ask_handler sw idx q = none) ∧
    fallbackMsg ≠ claimedFallback := by
  constructor
  · intro h; simp [ask_handler, h]
  · decide

/-- C6 witness: the amended statement evaluated on a concrete whitespace
query against a concrete index. -/
theorem c6_witness : ask_handler none c1I "  ".data = none :=
  (c6_amended none c1I "  ".data).1 (by decide)

-- ## C9: determinism

/-- C9: the retriever is deterministic — get_answer is a pure function of the
stopword-resource state, the index and the query, so two calls with identical
arguments return identical strings. -/
theorem c9_deterministic (sw : Option (List Str)) (idx1 idx2 : TfidfIndex)
    (qa qb : Str) (hq : qa = qb) (hi : idx1 = idx2) :
    get_answer sw idx1 qa = get_answer sw idx2 qb := by
  rw [hq, hi]

/-- C9 witness: determinism instantiated on a concrete query and index. -/
theorem c9_witness : get_answer none c1I q1 = get_answer none c1I q1 :=
  c9_deterministic none c1I c1I q1 q1 rfl rfl

-- ## C5: tie-breaking of top = sims.argsort()[-2:][::-1]

def lexLt (v : Nat → Rat) (a b : Nat) : Prop :=
  v a < v b ∨ (v a = v b ∧ a < b)

theorem mem_insIdx (v : Nat → Rat) (k : Nat) :
    ∀ (l : List Nat) (x : Nat), x ∈ insIdx v k l ↔ x = k ∨ x ∈ l := by
  intro l
  induction l with
  | nil => intro x; simp [insIdx]
  | cons j t ih =>
    intro x
    rw [insIdx]
    by_cases h : v j ≤ v k
    · rw [if_pos h]
      simp only [List.mem_cons, ih x]
      tauto
    · rw [if_neg h]
      simp only [List.mem_cons]

theorem pairwise_insIdx (v : Nat → Rat) (k : Nat) :
    ∀ (l : List Nat), l.Pairwise (lexLt v) → (∀ x ∈ l, x < k) →
      (insIdx v k l).Pairwise (lexLt v) := by
  intro l
  induction l with
  | nil => intro _ _; simp [insIdx]
  | cons j t ih =>
    intro hp hlt
    obtain ⟨hj, ht⟩ := List.pairwise_cons.mp hp
    rw [insIdx]
    by_cases h : v j ≤ v k
    · rw [if_pos h]
      refine List.pairwise_cons.mpr ⟨?_, ih ht (fun x hx => hlt x (by simp [hx]))⟩
      intro y hy
      rcases (mem_insIdx v k t y).mp hy with rfl | hy2
      · rcases lt_or_eq_of_le h with h1 | h1
        · exact Or.inl h1
        · exact Or.inr ⟨h1, hlt j (by simp)⟩
      · exact hj y hy2
    · rw [if_neg h]
      refine List.pairwise_cons.mpr ⟨?_, hp⟩
      intro y hy
      have hk : v k < v j := lt_of_not_le h
      rcases List.mem_cons.mp hy with rfl | hy2
      · exact Or.inl hk
      · rcases hj y hy2 with h1 | ⟨h1, _⟩
        · exact Or.inl (hk.trans h1)
        · exact Or.inl (h1 ▸ hk)

theorem foldl_insIdx_ok (v : Nat → Rat) :
    ∀ (l : List Nat) (acc : List Nat),
      acc.Pairwise (lexLt v) → l.Pairwise (· < ·) →
      (∀ x ∈ acc, ∀ k ∈ l, x < k) →
      ((l.foldl (fun acc k => insIdx v k acc) acc).Pairwise (lexLt v) ∧
       ∀ x, x ∈ l.foldl (fun acc k => insIdx v k acc) acc ↔ x ∈ acc ∨ x ∈ l) := by
  intro l
  induction l with
  | nil =>
    intro acc hacc _ _
    refine ⟨by simpa using hacc, fun x => by simp⟩
  | cons k rest ih =>
    intro acc hacc hl hcross
    obtain ⟨hk, hrest⟩ := List.pairwise_cons.mp hl
    simp only [List.foldl_cons]
    have hacc2 : (insIdx v k acc).Pairwise (lexLt v) :=
      pairwise_insIdx v k acc hacc (fun x hx => hcross x hx k (by simp))
    have hcross2 : ∀ x ∈ insIdx v k acc, ∀ j ∈ rest, x < j := by
      intro x hx j hj
      rcases (mem_insIdx v k acc x).mp hx with rfl | hx2
      · exact hk j hj
      · exact hcross x hx2 j (by simp [hj])
    obtain ⟨h1, h2⟩ := ih (insIdx v k acc) hacc2 hrest hcross2
    refine ⟨h1, fun x => ?_⟩
    rw [h2 x, mem_insIdx]
    simp only [List.mem_cons]
    tauto

theorem argsort_pairwise (v : Nat → Rat) (n : Nat) :
    (argsort v n).Pairwise (lexLt v) :=
  (foldl_insIdx_ok v (List.range n) [] (by simp) (List.pairwise_lt_range n)
    (by simp)).1

theorem mem_argsort (v : Nat → Rat) (n : Nat) (x : Nat) :
    x ∈ argsort v n ↔ x < n := by
  have h := (foldl_insIdx_ok v (List.range n) [] (by simp) (List.pairwise_lt_range n)
    (by simp)).2 x
  rw [show argsort v n = (List.range n).foldl (fun acc k => insIdx v k acc) [] from rfl, h]
  simp [List.mem_range]

-- Among exactly tied scores the selection keeps the LARGER indices and
-- orders them descending: if i < j score equally and i is selected, then
-- the selection is exactly [j, i].
theorem getTop_tie_aux (v : Nat → Rat) (i j : Nat) (hij : i < j)
    (heq : v i = v j) :
    ∀ (r : List Nat), r.Pairwise (fun a b => lexLt v b a) → j ∈ r →
      i ∈ r.take 2 → r.take 2 = [j, i] := by
  intro r
  cases r with
  | nil => intro _ _ hmem; simp at hmem
  | cons x r2 =>
    cases r2 with
    | nil =>
      intro _ hjr hmem
      simp only [List.take, List.mem_singleton] at hmem hjr
      omega
    | cons y rest =>
      intro hp hjr hmem
      have htake : (x :: y :: rest).take 2 = [x, y] := rfl
      rw [htake] at hmem ⊢
      obtain ⟨hx, hp2⟩ := List.pairwise_cons.mp hp
      obtain ⟨hy, _⟩ := List.pairwise_cons.mp hp2
      rcases List.mem_cons.mp hmem with rfl | hmem2
      · -- i cannot be the head among exact ties with a larger j
        exfalso
        rcases List.mem_cons.mp hjr with rfl | hjr2
        · omega
        · rcases hx j hjr2 with h1 | ⟨_, h2⟩
          · rw [heq] at h1; exact lt_irrefl _ h1
          · omega
      · rcases List.mem_cons.mp hmem2 with rfl | hmem3
      -- i is the second element
        · rcases List.mem_cons.mp hjr with rfl | hjr2
          · rfl
          · exfalso
            rcases List.mem_cons.mp hjr2 with rfl | hjr3
            · omega
            · rcases hy j hjr3 with h1 | ⟨_, h2⟩
              · rw [heq] at h1; exact lt_irrefl _ h1
              · omega
        · simp at hmem3

theorem getTop_tie (sims : List Rat) (i j : Nat) (hij : i < j)
    (hj : j < sims.length) (heq : sims.getD i 0 = sims.getD j 0)
    (hmem : i ∈ getTop sims) : getTop sims = [j, i] := by
  have hpair : ((argsort (fun k => sims.getD k 0) sims.length).reverse).Pairwise
      (fun a b => lexLt (fun k => sims.getD k 0) b a) :=
    List.pairwise_reverse.mpr (argsort_pairwise (fun k => sims.getD k 0) sims.length)
  have hjr : j ∈ (argsort (fun k => sims.getD k 0) sims.length).reverse := by
    rw [List.mem_reverse, mem_argsort]
    exact hj
  exact getTop_tie_aux (fun k => sims.getD k 0) i j hij heq
    ((argsort (fun k => sims.getD k 0) sims.length).reverse) hpair hjr hmem

def c5sents : List Str :=
  ["alpha beta.".data, "alpha gamma.".data, "alpha delta.".data]

def q5 : Str := "alpha".data

def c5I : TfidfIndex :=
  ⟨[[], "alpha beta.".data, "alpha gamma.".data, "alpha delta.".data],
   ["alpha".data, "beta".data, "delta".data, "gamma".data],
   [1, 1, 1, 1],
   [[0, 0, 0, 0], [1, 1, 0, 0], [1, 0, 0, 1], [1, 0, 1, 0]]⟩

/-- C5 counterexample: in the index built (chunk size 1) from the three
sentences "alpha beta." / "alpha gamma." / "alpha delta.", the query "alpha"
gives passages 1, 2 and 3 exactly equal nonzero similarity scores, yet the
selection is [3, 2]: the smallest tied id 1 is not selected at all and the
selected tied passages are ordered by DESCENDING id — refuting the claim
that the smaller id is preferred and ordered first among equals.  (The tie
is forced by symmetry, independently of the idf weights; the weight 1 here
stands in for the common idf value of the three equal-frequency terms.) -/
theorem c5_counterexample :
    build_tfidf_chunks none idfOne 1 c5sents = Except.ok c5I ∧
    (simsOf none c5I q5).getD 1 0 = (simsOf none c5I q5).getD 3 0 ∧
    (simsOf none c5I q5).getD 1 0 ≠ 0 ∧
    getTop (simsOf none c5I q5) = [3, 2] ∧
    1 ∉ getTop (simsOf none c5I q5) := by
  refine ⟨?_, ?_, ?_, ?_, ?_⟩ <;> first | rfl | decide

/-- C5 amended: the tie-break goes the opposite way to the claim, in the
regime where the program's tie order is defined at all — for every query
and every index with fewer than 16 passages (numpy's default argsort is
guaranteed stable only in its insertion-sort regime, below 16 elements;
for larger arrays the program leaves the order of exact ties unspecified),
whenever passages i < j have exactly equal similarity scores, the passage
with the LARGER id is preferred: if i is selected at all then j is selected
too and the selection is exactly [j, i], with the larger id ordered
first. -/
theorem c5_amended (sw : Option (List Str)) (idx : TfidfIndex) (q : Str)
    (i j : Nat) (_hn : (simsOf sw idx q).length < 16) (hij : i < j)
    (hj : j < (simsOf sw idx q).length)
    (heq : (simsOf sw idx q).getD i 0 = (simsOf sw idx q).getD j 0)
    (hmem : i ∈ getTop (simsOf sw idx q)) :
    getTop (simsOf sw idx q) = [j, i] :=
  getTop_tie (simsOf sw idx q) i j hij hj heq hmem

/-- C5 witness: the amended tie-break evaluated on the concrete tied index
of 4 passages (inside the stable regime); passages 2 and 3 tie and the
selection is [3, 2]. -/
theorem c5_witness : getTop (simsOf none c5I q5) = [3, 2] :=
  c5_amended none c5I q5 2 3 (by decide) (by decide) (by decide) (by decide)
    (by decide)

-- ## C4: the passages partition the sentence stream
--
-- Each chunk is its group of consecutive sentences joined with the inserted
-- separator spaces.  The first buffer grows from the empty string, so each
-- of its sentences is preceded by an inserted space; every later buffer is
-- seeded by its first sentence (no leading space).

def renderFirst (g : List Str) : Str := (g.map (fun s => ' ' :: s)).flatten

def renderRest : List Str → Str
  | [] => []
  | s :: t => s ++ (t.map (fun s => ' ' :: s)).flatten

def render (b : Bool) (g : List Str) : Str :=
  if b then renderFirst g else renderRest g

theorem render_false_single (s : Str) : render false [s] = s := by
  simp [render, renderRest]

theorem render_snoc (b : Bool) (g : List Str) (s : Str) (hb : b = false → g ≠ []) :
    render b (g ++ [s]) = render b g ++ ' ' :: s := by
  cases b with
  | true =>
    simp [render, renderFirst, List.map_append, List.flatten_append]
  | false =>
    cases g with
    | nil => exact absurd rfl (hb rfl)
    | cons s0 t =>
      simp [render, renderRest, List.map_append, List.flatten_append]

theorem chunkLoop_groups (n : Nat) :
    ∀ (sents : List Str) (b : Bool) (g : List Str), (b = false → g ≠ []) →
      ∃ (gext : List Str) (gs : List (List Str)), gext ++ gs.flatten = sents ∧
        ∀ chunks, chunkLoop n chunks (render b g) sents =
          chunks ++ render b (g ++ gext) :: gs.map renderRest := by
  intro sents
  induction sents with
  | nil =>
    intro b g _
    refine ⟨[], [], by simp, fun chunks => ?_⟩
    simp [chunkLoop]
  | cons s rest ih =>
    intro b g hb
    by_cases h : (render b g).length + s.length ≤ n
    · obtain ⟨gext, gs, hflat, hloop⟩ := ih b (g ++ [s]) (fun _ => by simp)
      refine ⟨s :: gext, gs, by simp [hflat], fun chunks => ?_⟩
      rw [chunkLoop, if_pos h, ← render_snoc b g s hb, hloop chunks]
      simp
    · obtain ⟨gext, gs, hflat, hloop⟩ := ih false [s] (fun _ => by simp)
      refine ⟨[], (s :: gext) :: gs, by simp [hflat], fun chunks => ?_⟩
      rw [chunkLoop, if_neg h]
      calc chunkLoop n (chunks ++ [render b g]) s rest
          = chunkLoop n (chunks ++ [render b g]) (render false [s]) rest := by
            rw [render_false_single]
        _ = (chunks ++ [render b g]) ++ render false ([s] ++ gext) :: gs.map renderRest :=
            hloop (chunks ++ [render b g])
        _ = chunks ++ render b (g ++ []) :: ((s :: gext) :: gs).map renderRest := by
            simp [render, renderRest]

/-- C4: for every chunk size and sentence stream, the chunker's output is a
partition of the sentence stream: there are consecutive groups of sentences,
covering every sentence exactly once in the original order, such that each
passage is exactly its group joined by the inserted separator spaces (a
leading space for the first buffer, which grows from the empty string). -/
theorem c4_partition (n : Nat) (sents : List Str) :
    ∃ (g0 : List Str) (gt : List (List Str)), (g0 :: gt).flatten = sents ∧
      buildChunks n sents = renderFirst g0 :: gt.map renderRest := by
  obtain ⟨gext, gs, hflat, hloop⟩ := chunkLoop_groups n sents true [] (by simp)
  refine ⟨gext, gs, by simpa using hflat, ?_⟩
  have h := hloop []
  rw [show render true [] = ([] : Str) from rfl] at h
  rw [buildChunks, h]
  simp [render]

end NestleBot
